import Mathlib

namespace InversifyKoa

/-!
Verification of the inversify-koa-utils routing/dispatch core.

The definitions below are shallow embeddings of the TypeScript sources:
`src/utils.ts` (pathJoin), `src/server.ts` (InversifyKoaServer: route
registration, middleware resolution, authorization handler, parameter
extraction, dispatcher, principal resolution).
-/

/-- Minimal model of JavaScript runtime values, as needed by the server
core: primitives, plain objects (association list of fields), objects
with a `get(name)` method (the Koa cookie jar), and pending promises. -/

inductive JsVal where
  | undefV : JsVal
  | nullV : JsVal
  | boolV : Bool → JsVal
  | numV : Int → JsVal
  | strV : String → JsVal
  /-- an object; `fields` backs property access `o[name]`, `getTable`
  backs a method call `o.get(name)` (used only by the cookie jar). -/
  | obj : List (String × JsVal) → List (String × JsVal) → JsVal
  /-- a pending asynchronous result (a `Promise`). -/
  | promiseV : JsVal → JsVal
deriving Repr

/-- JavaScript truthiness: `undefined`, `null`, `false`, `0` and `""` are
falsy; objects and promises are truthy. -/

def truthy : JsVal → Bool
  | .undefV => false
  | .nullV => false
  | .boolV b => b
  | .numV n => !(n == 0)
  | .strV s => !s.isEmpty
  | .obj _ _ => true
  | .promiseV _ => true

/-- Property access `source[name]`: field lookup on objects, `undefined`
otherwise (the sources never access fields of `null`). -/

def getField : JsVal → String → JsVal
  | .obj fields _, name => ((fields.lookup name).getD .undefV)
  | _, _ => .undefV

/-- Method call `source.get(name)` (cookie-jar style lookup). -/

def getGet : JsVal → String → JsVal
  | .obj _ getTable, name => ((getTable.lookup name).getD .undefV)
  | _, _ => .undefV

/-- Detection of promises (`result instanceof Promise`). -/

def isPromise : JsVal → Bool
  | .promiseV _ => true
  | _ => false

/-! ## Path join (`src/utils.ts`)

The source `normalize` joins the strings with `'/'`, replaces every run
of 2+ slashes by one (`str.replace(/\x7b2,\x7d/...)`), and removes trailing
slashes when the string has a character other than a slash.  We embed it
on `List Char` and wrap into `String` at the boundary. -/

/-- Embedding of `arr.join('/')` on the underlying character lists. -/

def joinSegs : List (List Char) → List Char
  | [] => []
  | [s] => s
  | s :: s₂ :: rest => s ++ '/' :: joinSegs (s₂ :: rest)

/-- Embedding of the replacement of slash runs: collapse every run of two or more
consecutive slashes into a single slash. -/

def collapse : List Char → List Char
  | [] => []
  | [c] => [c]
  | c₁ :: c₂ :: rest =>
    if c₁ = '/' ∧ c₂ = '/' then collapse (c₂ :: rest)
    else c₁ :: collapse (c₂ :: rest)

/-- Embedding of the trailing-slash removal: drop the trailing run of slashes. -/

def stripT (l : List Char) : List Char :=
  (l.reverse.dropWhile (fun c => c == '/')).reverse

/-- Test from the source guard: the string has a character other
than a slash. -/

def hasNonSlash (l : List Char) : Bool :=
  l.any (fun c => !(c == '/'))

/-- Body of `normalize` after the join, on characters. -/

def normalizeChars (l : List Char) : List Char :=
  let c := collapse l
  if hasNonSlash c then stripT c else c

/-- Embedding of `normalize(strArray)` from `src/utils.ts`. -/

def normalize (strArray : List String) : String :=
  if strArray.isEmpty then ""
  else String.mk (normalizeChars (joinSegs (strArray.map String.data)))

/-- Embedding of `isString` from `src/utils.ts`, on the value model. -/

def isString : JsVal → Bool
  | .strV _ => true
  | _ => false

/-- Embedding of `pathJoin(...args)` from `src/utils.ts`: keep only the string
arguments and normalize their join. -/

def pathJoin (args : List JsVal) : String :=
  normalize (args.filterMap (fun v => match v with | .strV s => some s | _ => none))

/-! ## Segment-level characterization of `normalize`

To settle the algebraic claims about `pathJoin` we characterize the
normalization by the list of slash-free segments of its input, plus
whether the input starts with a slash. -/

/-- Splitting of a character list on slashes: each slash opens a new
(possibly empty) piece. -/

def splitSlash : List Char → List (List Char)
  | [] => [[]]
  | c :: rest =>
    if c = '/' then [] :: splitSlash rest
    else
      match splitSlash rest with
      | [] => [[c]]
      | s :: ss => (c :: s) :: ss

/-- Nonempty slash-free segments of a character list. -/

def segs (l : List Char) : List (List Char) :=
  (splitSlash l).filter (fun s => !s.isEmpty)

/-- Leading slash of a character list, kept by normalization. -/

def leadSlash (l : List Char) : List Char :=
  if l.head? = some '/' then ['/'] else []

/-- Canonical form: a leading slash when the input had one, then the
nonempty segments joined by single slashes; inputs without non-slash
characters map to `[]` or to a single slash. -/

def canon (l : List Char) : List Char :=
  if hasNonSlash l then leadSlash l ++ joinSegs (segs l)
  else if l.isEmpty then [] else ['/']

/-- Definition following the specification text, for the refinement
comparison with the source `pathJoin`: drop non-string segments,
concatenate the rest with slashes, collapse every run of two or more
slashes into one; a result consisting solely of slashes collapses to a
single slash, otherwise trailing slashes are stripped. -/

def pathJoinSpec (args : List JsVal) : String :=
  let parts := args.filterMap (fun v => match v with | .strV s => some s | _ => none)
  let c := collapse (joinSegs (parts.map String.data))
  if c ≠ [] ∧ hasNonSlash c = false then "/"
  else String.mk (stripT c)

/-! ## Parameter extraction (`src/server.ts`, `extractParameters`,
`getParam`, `checkQueryParam`) -/

/-- Parameter source kinds from `constants.ts` (`PARAMETER_TYPE`), as
referenced by the switch in `extractParameters`. -/

inductive PARAMETER_TYPE where
  | REQUEST | RESPONSE | PARAMS | QUERY | BODY | HEADERS | COOKIES | NEXT | CTX
deriving DecidableEq, Repr

/-- Metadata of one parameter binding (`interfaces.ts`). -/

structure ParameterMetadata where
  parameterName : String
  index : Nat
  type : PARAMETER_TYPE
deriving DecidableEq, Repr

/-- Resolution of `paramType === null ? source : source[paramType] || source`
inside `getParam`. -/

def paramOf (source : JsVal) (paramType : Option String) : JsVal :=
  match paramType with
  | none => source
  | some pt => if truthy (getField source pt) then getField source pt else source

/-- Embedding of `checkQueryParam` from `src/server.ts`. -/

def checkQueryParam (paramType : Option String) (param : JsVal) (name : String) : JsVal :=
  if paramType = some "query" then .undefV
  else if paramType = some "cookies" then getGet param name
  else param

/-- Embedding of `getParam` from `src/server.ts`:
`param[name] || checkQueryParam(paramType, param, name)`. -/

def getParam (source : JsVal) (paramType : Option String) (name : String) : JsVal :=
  let param := paramOf source paramType
  if truthy (getField param name) then getField param name
  else checkQueryParam paramType param name

/-- Value selected for one binding by the switch in `extractParameters`. -/

def paramValue (ctx nextV : JsVal) (item : ParameterMetadata) : JsVal :=
  match item.type with
  | .RESPONSE => getParam (getField ctx "response") none item.parameterName
  | .REQUEST => getParam (getField ctx "request") none item.parameterName
  | .NEXT => nextV
  | .CTX => getParam ctx none item.parameterName
  | .PARAMS => getParam ctx (some "params") item.parameterName
  | .QUERY => getParam ctx (some "query") item.parameterName
  | .BODY => getParam (getField ctx "request") (some "body") item.parameterName
  | .HEADERS => getParam (getField ctx "request") (some "headers") item.parameterName
  | .COOKIES => getParam ctx (some "cookies") item.parameterName

/-- JavaScript sparse-array assignment `args[i] = v`: indices beyond the
current length are padded with `undefined`. -/

def setIdx (args : List JsVal) (i : Nat) (v : JsVal) : List JsVal :=
  if i < args.length then args.set i v
  else args ++ List.replicate (i - args.length) .undefV ++ [v]

/-- Named slots filled by the `for` loop of `extractParameters`. -/

def fillSlots (ctx nextV : JsVal) (params : List ParameterMetadata) : List JsVal :=
  params.foldl (fun args item => setIdx args item.index (paramValue ctx nextV item)) []

/-- Embedding of `extractParameters` from `src/server.ts`: empty binding
list returns `[ctx, next]`; otherwise the loop fills indexed slots and
then `args.push(ctx, next)` appends the two trailing arguments. -/

def extractParameters (ctx nextV : JsVal) (params : List ParameterMetadata) : List JsVal :=
  if params.isEmpty then [ctx, nextV]
  else fillSlots ctx nextV params ++ [ctx, nextV]

/-! ## Dispatcher (`src/server.ts`, `handlerFactory`) -/

/-- Observable outcome of the dispatcher after the controller method
returned `result`. -/

inductive DispatchOutcome where
  /-- the dispatcher returns the pending promise to the pipeline. -/
  | yieldedAsync : JsVal → DispatchOutcome
  /-- the dispatcher completes with the given final response body. -/
  | completed : Option JsVal → DispatchOutcome
deriving Repr

/-- Embedding of the result handling in `handlerFactory`
(`src/server.ts` lines 233-238): `if (result && result instanceof
Promise) return result; else if (result && !ctx.headerSent) ctx.body =
result;`.  `body` is the response body before the handler ran. -/

def dispatchResult (result : JsVal) (headerSent : Bool) (body : Option JsVal) :
    DispatchOutcome :=
  if truthy result && isPromise result then .yieldedAsync result
  else if truthy result && !headerSent then .completed (some result)
  else .completed body

/-! ## Authorization gate (`src/server.ts`, `authorizationHandlerFactory`)
and principal resolution (`_getCurrentPrincipal`) -/

/-- Model of a resolved request principal: the promise-returning
observations are modelled by their resolved values. -/

structure Principal where
  details : JsVal
  isAuthenticated : Bool
  isInRole : String → Bool
  isResourceOwner : JsVal → Bool

/-- Outcome of an authorization handler on one request. -/

inductive AuthOutcome where
  | thrown : Nat → AuthOutcome
  | nextCalled : AuthOutcome
deriving DecidableEq, Repr

/-- Embedding of the handler produced by `authorizationHandlerFactory`:
authenticate, then check every required role (a single failing role marks
the request unauthorized), then throw 401 / throw 403 / call next. -/

def authorizationHandler (requiredRoles : List String) (principal : Option Principal) :
    AuthOutcome :=
  let isAuthenticated : Bool :=
    match principal with
    | some p => p.isAuthenticated
    | none => false
  let isAuthorized : Bool :=
    match principal with
    | some p =>
      if p.isAuthenticated then
        requiredRoles.foldl (fun acc r => if p.isInRole r then acc else false) true
      else false
    | none => false
  if !isAuthenticated then .thrown 401
  else if !isAuthorized then .thrown 403
  else .nextCalled

/-- Default principal synthesized by `_getCurrentPrincipal` when no auth
provider is configured: always-deny. -/

def defaultPrincipal : Principal where
  details := .nullV
  isAuthenticated := false
  isInRole := fun _ => false
  isResourceOwner := fun _ => false

/-- Embedding of `_getCurrentPrincipal`: delegate to the configured auth
provider, or synthesize the always-deny principal. -/

def getCurrentPrincipal (authProvider : Option (JsVal → Principal)) (ctx : JsVal) :
    Principal :=
  match authProvider with
  | some provider => provider ctx
  | none => defaultPrincipal

/-! ## Route registration (`src/server.ts`, `registerControllers`,
`resolveMiddleware`)

Inline Koa handlers are abstracted by a type parameter `H`; the DI
container is abstracted by its lookup on middleware identifiers, which is
all `resolveMiddleware` uses. -/

/-- A middleware list entry (`interfaces.ts` `Middleware`): an inline
handler or a service identifier to resolve through the container. -/

inductive MiddlewareRef (H : Type) where
  | inline : H → MiddlewareRef H
  | serviceId : String → MiddlewareRef H
deriving DecidableEq, Repr

/-- Kind of instance a bound middleware identifier resolves to: an
instance of `BaseMiddleware`, or a plain handler. -/

inductive MwInstance (H : Type) where
  | base : H → MwInstance H
  | plain : H → MwInstance H
deriving DecidableEq, Repr

/-- The DI container as used by `resolveMiddleware`: `isBound` is
`(lookup m).isSome`, `get` is the payload. -/

structure Container (H : Type) where
  lookup : MiddlewareRef H → Option (MwInstance H)

/-- A resolved request handler in the middleware chain: an adapter
wrapping a `BaseMiddleware` handler, a directly resolved handler, or an
unbound item used as-is. -/

inductive ResolvedMw (H : Type) where
  | wrapped : H → ResolvedMw H
  | direct : H → ResolvedMw H
  | asIs : MiddlewareRef H → ResolvedMw H
deriving DecidableEq, Repr

/-- Embedding of `resolveMiddleware` from `src/server.ts`: bound
`BaseMiddleware` instances are wrapped, other bound instances are used
directly, unbound items are used as-is. -/

def resolveMiddleware (c : Container H) (middleware : List (MiddlewareRef H)) :
    List (ResolvedMw H) :=
  middleware.map fun middlewareItem =>
    match c.lookup middlewareItem with
    | some (.base h) => .wrapped h
    | some (.plain h) => .direct h
    | none => .asIs middlewareItem

/-- One handler in a registered route chain. -/

inductive Handler (H : Type) where
  | mw : ResolvedMw H → Handler H
  | auth : List String → Handler H
  | dispatch : String → String → List ParameterMetadata → Handler H
deriving DecidableEq, Repr

/-- Metadata attached by the `@controller` decorator (`interfaces.ts`),
with `targetName` standing for `target.name`. -/

structure ControllerMetadata (H : Type) where
  path : String
  middleware : List (MiddlewareRef H)
  targetName : String
deriving DecidableEq, Repr

/-- Metadata attached by one HTTP method decorator (`interfaces.ts`). -/

structure ControllerMethodMetadata (H : Type) where
  path : String
  middleware : List (MiddlewareRef H)
  method : String
  key : String
deriving DecidableEq, Repr

/-- Metadata attached by `@authorizeAll`. -/

structure AuthorizeAllMetadata where
  requiredRoles : List String
deriving DecidableEq, Repr

/-- Metadata attached by `@authorize` on one method. -/

structure AuthorizeMetadata where
  requiredRoles : List String
  key : String
deriving DecidableEq, Repr

/-- The five reflection records read for one controller by
`registerControllers`; `none` models absent metadata.  Records keyed by
method name are association lists. -/

structure ControllerData (H : Type) where
  controllerMetadata : Option (ControllerMetadata H)
  methodMetadata : Option (List (ControllerMethodMetadata H))
  parameterMetadata : Option (List (String × List ParameterMetadata))
  authorizeAllMetadata : Option AuthorizeAllMetadata
  authorizeMetadata : Option (List (String × AuthorizeMetadata))

/-- A route registered on the router: verb, path and handler chain. -/

structure RouteEntry (H : Type) where
  verb : String
  path : String
  chain : List (Handler H)
deriving DecidableEq, Repr

/-- Authorization handler contributed by the `if (authorizeAllMetadata)`
push in `registerControllers`. -/

def classAuthHandlers (data : ControllerData H) : List (Handler H) :=
  match data.authorizeAllMetadata with
  | some am => [Handler.auth am.requiredRoles]
  | none => []

/-- Authorization handler contributed by the `if (authorizeMetadata)`
push in `registerControllers`: present only when the record holds an
entry for the method key. -/

def methodAuthHandlers (data : ControllerData H) (key : String) : List (Handler H) :=
  match data.authorizeMetadata with
  | some record =>
    match record.lookup key with
    | some am => [Handler.auth am.requiredRoles]
    | none => []
  | none => []

/-- Parameter list for a method key: `parameterMetadata[metadata.key] || []`. -/

def paramListFor (data : ControllerData H) (key : String) : List ParameterMetadata :=
  match data.parameterMetadata with
  | some pm => (pm.lookup key).getD []
  | none => []

/-- Embedding of the per-controller body of `registerControllers`
(`src/server.ts` lines 135-167): when both controller and method metadata
exist, each method metadata entry registers one route whose chain is the
spread `...controllerMiddleware, ...routeMiddleware,
...authorizationHandler, handler`, with the authorization handler list
built by pushing the class-wide rule first and the method rule second. -/

def registerController (c : Container H) (data : ControllerData H) :
    List (RouteEntry H) :=
  match data.controllerMetadata, data.methodMetadata with
  | some controllerMetadata, some methodMetadata =>
    let controllerMiddleware := resolveMiddleware c controllerMetadata.middleware
    methodMetadata.map fun metadata =>
      let paramList := paramListFor data metadata.key
      let authorizationHandler : List (Handler H) :=
        classAuthHandlers data ++ methodAuthHandlers data metadata.key
      let handler : Handler H :=
        .dispatch controllerMetadata.targetName metadata.key paramList
      let routeMiddleware := resolveMiddleware c metadata.middleware
      { verb := metadata.method
        path := pathJoin [.strV controllerMetadata.path, .strV metadata.path]
        chain := controllerMiddleware.map Handler.mw
          ++ routeMiddleware.map Handler.mw
          ++ authorizationHandler
          ++ [handler] }
  | _, _ => []

/-- Result of running a request through a registered chain. -/

inductive RunResult where
  /-- the request failed with an HTTP status (`ctx.throw`). -/
  | status : Nat → RunResult
  /-- the request reached the terminal dispatcher of controller/method. -/
  | dispatched : String → String → RunResult
  /-- a middleware ended the request without calling `next`. -/
  | stopped : RunResult
deriving DecidableEq, Repr

/-- Sequential execution of a handler chain for one request: `beh m`
tells whether resolved middleware `m` invokes its continuation;
authorization handlers run the gate; the dispatcher terminates. -/

def runChain (beh : ResolvedMw H → Bool) (principal : Option Principal) :
    List (Handler H) → RunResult
  | [] => .stopped
  | .mw m :: rest => if beh m then runChain beh principal rest else .stopped
  | .auth roles :: rest =>
    match authorizationHandler roles principal with
    | .thrown s => .status s
    | .nextCalled => runChain beh principal rest
  | .dispatch controllerName key _ :: _ => .dispatched controllerName key

/-- Principal used in concrete instantiations: authenticated, in role
`admin` only. -/

def pAdmin : Principal where
  details := .nullV
  isAuthenticated := true
  isInRole := fun r => r == "admin"
  isResourceOwner := fun _ => false

/-- Container used in concrete instantiations: one bound scoped
middleware identifier. -/

def wContainer : Container Nat where
  lookup := fun m =>
    match m with
    | .serviceId "mid" => some (.base 1)
    | _ => none

/-- Controller metadata bundle used in concrete instantiations. -/

def wData : ControllerData Nat where
  controllerMetadata := some ⟨"/api", [.serviceId "mid", .inline 7], "TestController"⟩
  methodMetadata := some [⟨"/items", [.inline 9], "get", "getItems"⟩]
  parameterMetadata := some [("getItems", [⟨"id", 0, .PARAMS⟩])]
  authorizeAllMetadata := some ⟨["admin"]⟩
  authorizeMetadata := some [("getItems", ⟨["owner"], "getItems"⟩)]

/-- Field lookup on the value model: `some v` when the object carries the
field, `none` otherwise. -/

def lookupField : JsVal → String → Option JsVal
  | .obj fields _, name => fields.lookup name
  | _, _ => none

/-- Request context used in concrete instantiations: request with body
and headers, an empty query map, and a cookie jar holding `session`. -/

def wCtx : JsVal :=
  .obj [("request", .obj [("body", .obj [("x", .strV "1")] []),
                          ("headers", .obj [] [])] []),
        ("query", .obj [] []),
        ("cookies", .obj [] [("session", .strV "abc123")])] []

/-- Object with a present but falsy field, used in concrete
instantiations. -/

def falsyCtx : JsVal := .obj [("a", .strV "")] []

theorem splitSlash_ne_nil (l : List Char) : splitSlash l ≠ [] := by
  match l with
  | [] => simp [splitSlash]
  | c :: rest =>
    rw [splitSlash]
    split
    · simp
    · split <;> simp

theorem splitSlash_append (x y : List Char) :
    splitSlash (x ++ '/' :: y) = splitSlash x ++ splitSlash y := by
  induction x with
  | nil => simp [splitSlash]
  | cons c x ih =>
    by_cases hc : c = '/'
    · subst hc
      simp only [List.cons_append, splitSlash, if_pos rfl, List.nil_append,
        eq_self_iff_true, if_true]
      exact congrArg (List.cons []) ih
    · obtain ⟨s, ss, hss⟩ := List.exists_cons_of_ne_nil (splitSlash_ne_nil x)
      rw [List.cons_append, splitSlash, if_neg hc, ih, hss, List.cons_append]
      rw [splitSlash, if_neg hc, hss]
      rfl

theorem segs_nil : segs [] = [] := by simp [segs, splitSlash]

theorem segs_cons_slash (l : List Char) : segs ('/' :: l) = segs l := by
  simp [segs, splitSlash]

theorem segs_append (x y : List Char) :
    segs (x ++ '/' :: y) = segs x ++ segs y := by
  simp [segs, splitSlash_append, List.filter_append]

theorem mem_splitSlash_slashFree {l : List Char} {s : List Char}
    (hs : s ∈ splitSlash l) : ∀ c ∈ s, c ≠ '/' := by
  induction l generalizing s with
  | nil =>
    simp only [splitSlash, List.mem_singleton] at hs
    subst hs; simp
  | cons c rest ih =>
    rw [splitSlash] at hs
    split at hs
    · rcases List.mem_cons.mp hs with h | h
      · subst h; simp
      · exact ih h
    · rename_i hc
      obtain ⟨t, ts, hts⟩ := List.exists_cons_of_ne_nil (splitSlash_ne_nil rest)
      rw [hts] at hs
      rcases List.mem_cons.mp hs with h | h
      · subst h
        intro d hd
        rcases List.mem_cons.mp hd with h | h
        · subst h; exact hc
        · exact ih (hts ▸ List.mem_cons_self t ts) d h
      · exact ih (hts ▸ List.mem_cons_of_mem t h)

theorem mem_segs_ne_nil {l : List Char} {s : List Char} (hs : s ∈ segs l) :
    s ≠ [] := by
  have := List.of_mem_filter hs
  simpa using this

theorem mem_segs_slashFree {l : List Char} {s : List Char} (hs : s ∈ segs l) :
    ∀ c ∈ s, c ≠ '/' :=
  mem_splitSlash_slashFree (List.mem_of_mem_filter hs)

theorem segs_eq_nil_iff (l : List Char) : segs l = [] ↔ hasNonSlash l = false := by
  induction l with
  | nil => simp [segs_nil, hasNonSlash]
  | cons c rest ih =>
    by_cases hc : c = '/'
    · subst hc
      rw [segs_cons_slash, ih]
      simp [hasNonSlash]
    · obtain ⟨s, ss, hss⟩ := List.exists_cons_of_ne_nil (splitSlash_ne_nil rest)
      constructor
      · intro h
        exfalso
        rw [segs, splitSlash, if_neg hc, hss] at h
        simp at h
      · intro h
        exfalso
        simp only [hasNonSlash, List.any_cons, Bool.or_eq_false_iff,
          Bool.not_eq_false', beq_iff_eq] at h
        exact hc h.1

theorem hasNonSlash_eq_false_iff (l : List Char) :
    hasNonSlash l = false ↔ ∀ c ∈ l, c = '/' := by
  simp [hasNonSlash]

theorem hasNonSlash_collapse : ∀ l : List Char, hasNonSlash (collapse l) = hasNonSlash l
  | [] => rfl
  | [_] => rfl
  | c₁ :: c₂ :: rest => by
    have ih := hasNonSlash_collapse (c₂ :: rest)
    rw [collapse]
    split
    · rename_i h
      rw [ih]
      simp [hasNonSlash, h.1]
    · simp only [hasNonSlash, List.any_cons] at ih ⊢
      rw [ih]

theorem collapse_all_slash : ∀ l : List Char, hasNonSlash l = false → l ≠ [] →
    collapse l = ['/']
  | [c], h, _ => by
    have hc : c = '/' := by
      have := (hasNonSlash_eq_false_iff [c]).mp h
      exact this c (List.mem_singleton_self c)
    rw [collapse, hc]
  | c₁ :: c₂ :: rest, h, _ => by
    have hall := (hasNonSlash_eq_false_iff _).mp h
    have h₁ : c₁ = '/' := hall c₁ (by simp)
    have h₂ : c₂ = '/' := hall c₂ (by simp)
    have htail : hasNonSlash (c₂ :: rest) = false := by
      rw [hasNonSlash_eq_false_iff]
      intro c hc
      exact hall c (List.mem_cons_of_mem c₁ hc)
    rw [collapse, if_pos ⟨h₁, h₂⟩]
    exact collapse_all_slash (c₂ :: rest) htail (by simp)

theorem dropWhile_append_singleton (p : Char → Bool) (m : List Char) (a : Char) :
    (m ++ [a]).dropWhile p =
      if m.dropWhile p = [] then [a].dropWhile p else m.dropWhile p ++ [a] := by
  induction m with
  | nil => simp
  | cons b m ih =>
    by_cases hb : p b
    · simpa [List.dropWhile_cons, hb] using ih
    · simp [List.dropWhile_cons, hb]

theorem stripT_nil : stripT [] = [] := rfl

theorem stripT_cons (a : Char) (x : List Char) :
    stripT (a :: x) =
      if stripT x = [] then (if a = '/' then [] else [a]) else a :: stripT x := by
  have hnil : stripT x = [] ↔ x.reverse.dropWhile (fun c => c == '/') = [] := by
    unfold stripT
    exact List.reverse_eq_nil_iff
  unfold stripT
  rw [List.reverse_cons, dropWhile_append_singleton]
  by_cases h : x.reverse.dropWhile (fun c => c == '/') = []
  · rw [if_pos h, h]
    by_cases ha : a = '/'
    · simp [List.dropWhile, ha]
    · have hb : (a == '/') = false := by simp [ha]
      simp [List.dropWhile, ha, hb]
  · rw [if_neg h, if_neg (fun hh => h (List.reverse_eq_nil_iff.mp hh))]
    simp

theorem stripT_cons_of_ne (a : Char) (x : List Char) (ha : a ≠ '/') :
    stripT (a :: x) = a :: stripT x := by
  rw [stripT_cons]
  by_cases h : stripT x = []
  · rw [if_pos h, if_neg ha, h]
  · rw [if_neg h]

theorem stripT_cons_of_strip_ne_nil (a : Char) (x : List Char) (h : stripT x ≠ []) :
    stripT (a :: x) = a :: stripT x := by
  rw [stripT_cons, if_neg h]

theorem hasNonSlash_dropWhile (m : List Char) :
    hasNonSlash (m.dropWhile (fun c => c == '/')) = hasNonSlash m := by
  induction m with
  | nil => rfl
  | cons b m ih =>
    by_cases hb : b = '/'
    · rw [List.dropWhile_cons_of_pos (by simp [hb])]
      rw [ih]
      simp [hasNonSlash, hb]
    · rw [List.dropWhile_cons_of_neg (by simp [hb])]

theorem hasNonSlash_reverse (l : List Char) :
    hasNonSlash l.reverse = hasNonSlash l := by
  simp [hasNonSlash, List.any_reverse]

theorem hasNonSlash_stripT (l : List Char) :
    hasNonSlash (stripT l) = hasNonSlash l := by
  unfold stripT
  rw [hasNonSlash_reverse, hasNonSlash_dropWhile, hasNonSlash_reverse]

theorem stripT_ne_nil (l : List Char) (h : hasNonSlash l = true) : stripT l ≠ [] := by
  intro hnil
  have h2 := hasNonSlash_stripT l
  rw [hnil, h] at h2
  simp [hasNonSlash] at h2

theorem joinSegs_cons_head (a : Char) (s : List Char) (rest : List (List Char)) :
    joinSegs ((a :: s) :: rest) = a :: joinSegs (s :: rest) := by
  match rest with
  | [] => rfl
  | r :: rs => simp [joinSegs]

theorem splitSlash_all_nil : ∀ m : List Char, hasNonSlash m = false →
    ∀ s ∈ splitSlash m, s = []
  | [], _, s, hs => by
    simpa [splitSlash] using hs
  | c :: m, h, s, hs => by
    have hall := (hasNonSlash_eq_false_iff _).mp h
    have hc : c = '/' := hall c (by simp)
    have htail : hasNonSlash m = false := by
      rw [hasNonSlash_eq_false_iff]
      exact fun d hd => hall d (List.mem_cons_of_mem c hd)
    rw [splitSlash, if_pos hc] at hs
    rcases List.mem_cons.mp hs with h' | h'
    · exact h'
    · exact splitSlash_all_nil m htail s h'

theorem segs_of_all_slash (m : List Char) (h : hasNonSlash m = false) :
    segs m = [] :=
  (segs_eq_nil_iff m).mpr h

theorem stripT_collapse : ∀ l : List Char, hasNonSlash l = true →
    stripT (collapse l) = leadSlash l ++ joinSegs (segs l)
  | [], h => by simp [hasNonSlash] at h
  | [c], h => by
    have hc : ¬c = '/' := by simpa [hasNonSlash] using h
    rw [collapse, stripT_cons_of_ne c [] hc, stripT_nil]
    simp [leadSlash, segs, splitSlash, if_neg hc, joinSegs, hc]
  | c₁ :: c₂ :: rest, h => by
    by_cases h12 : c₁ = '/' ∧ c₂ = '/'
    · obtain ⟨h1, h2⟩ := h12
      subst h1
      have htail : hasNonSlash (c₂ :: rest) = true := by
        simpa [hasNonSlash] using h
      have ih := stripT_collapse (c₂ :: rest) htail
      rw [collapse, if_pos ⟨rfl, h2⟩, ih]
      subst h2
      rw [segs_cons_slash ('/' :: rest)]
      simp [leadSlash]
    · rw [collapse, if_neg h12]
      by_cases hc1 : c₁ = '/'
      · have hc2 : ¬c₂ = '/' := fun h2 => h12 ⟨hc1, h2⟩
        subst hc1
        have htail : hasNonSlash (c₂ :: rest) = true := by
          simp [hasNonSlash, hc2]
        have hcol : hasNonSlash (collapse (c₂ :: rest)) = true := by
          rw [hasNonSlash_collapse]; exact htail
        rw [stripT_cons_of_strip_ne_nil _ _ (stripT_ne_nil _ hcol),
          stripT_collapse (c₂ :: rest) htail,
          segs_cons_slash (c₂ :: rest)]
        simp [leadSlash, hc2]
      · by_cases htail : hasNonSlash (c₂ :: rest) = true
        · have hcol : hasNonSlash (collapse (c₂ :: rest)) = true := by
            rw [hasNonSlash_collapse]; exact htail
          rw [stripT_cons_of_strip_ne_nil _ _ (stripT_ne_nil _ hcol),
            stripT_collapse (c₂ :: rest) htail]
          rw [show leadSlash (c₁ :: c₂ :: rest) = [] from by simp [leadSlash, hc1],
            List.nil_append]
          by_cases hc2 : c₂ = '/'
          · subst hc2
            have hrest : hasNonSlash rest = true := by
              simpa [hasNonSlash] using htail
            have hsegs : segs rest ≠ [] := by
              intro hnil
              rw [(segs_eq_nil_iff rest).mp hnil] at hrest
              exact Bool.false_ne_true hrest
            obtain ⟨g, gs, hgs⟩ := List.exists_cons_of_ne_nil hsegs
            have hsp : segs (c₁ :: '/' :: rest) = [c₁] :: segs rest := by
              rw [segs, splitSlash, if_neg hc1, splitSlash, if_pos rfl]
              simp [segs]
            rw [hsp, segs_cons_slash, hgs, joinSegs]
            simp [leadSlash]
          · obtain ⟨s, ss, hss⟩ := List.exists_cons_of_ne_nil (splitSlash_ne_nil rest)
            have hsp₂ : segs (c₂ :: rest) = (c₂ :: s) :: ss.filter (fun t => !t.isEmpty) := by
              rw [segs, splitSlash, if_neg hc2, hss]
              simp
            have hsp₁ : segs (c₁ :: c₂ :: rest)
                = (c₁ :: c₂ :: s) :: ss.filter (fun t => !t.isEmpty) := by
              rw [segs, splitSlash, if_neg hc1, splitSlash, if_neg hc2, hss]
              simp
            rw [hsp₁, hsp₂]
            simp [leadSlash, hc2, joinSegs_cons_head]
        · have htail' : hasNonSlash (c₂ :: rest) = false :=
            Bool.not_eq_true _ ▸ eq_false_of_ne_true htail
          rw [collapse_all_slash (c₂ :: rest) htail' (by simp)]
          have hstrip : stripT (c₁ :: ['/']) = [c₁] := by
            rw [stripT_cons, if_pos (by rw [stripT_cons]; simp [stripT_nil]), if_neg hc1]
          rw [hstrip]
          obtain ⟨s, ss, hss⟩ := List.exists_cons_of_ne_nil (splitSlash_ne_nil (c₂ :: rest))
          have hsnil : s = [] :=
            splitSlash_all_nil (c₂ :: rest) htail' s (hss ▸ List.mem_cons_self s ss)
          have hssnil : ∀ t ∈ ss, t = [] := fun t ht =>
            splitSlash_all_nil (c₂ :: rest) htail' t (hss ▸ List.mem_cons_of_mem s ht)
          have hsp : segs (c₁ :: c₂ :: rest) = [[c₁]] := by
            rw [segs, splitSlash, if_neg hc1, hss, hsnil]
            have : ss.filter (fun t => !t.isEmpty) = [] := by
              rw [List.filter_eq_nil_iff]
              intro t ht
              rw [hssnil t ht]
              simp
            simp [this]
          rw [hsp]
          simp [leadSlash, hc1, joinSegs]

/-- Characterization of the source normalization by leading slash and
slash-free segments. -/
theorem normalizeChars_eq_canon (l : List Char) : normalizeChars l = canon l := by
  by_cases h : hasNonSlash l = true
  · rw [normalizeChars, canon, if_pos h]
    rw [show hasNonSlash (collapse l) = true from (hasNonSlash_collapse l).trans h,
      if_pos rfl]
    exact stripT_collapse l h
  · have h' : hasNonSlash l = false := eq_false_of_ne_true h
    rw [normalizeChars, canon, if_neg h]
    by_cases hnil : l = []
    · subst hnil
      simp [collapse, hasNonSlash]
    · rw [collapse_all_slash l h' hnil]
      have : l.isEmpty = false := by
        simpa [List.isEmpty_iff] using hnil
      simp [hasNonSlash, this]

theorem splitSlash_slashFree : ∀ s : List Char, (∀ c ∈ s, c ≠ '/') →
    splitSlash s = [s]
  | [], _ => rfl
  | c :: t, h => by
    have hc : ¬c = '/' := h c (by simp)
    have ht := splitSlash_slashFree t (fun d hd => h d (List.mem_cons_of_mem c hd))
    rw [splitSlash, if_neg hc, ht]

theorem segs_single (s : List Char) (hne : s ≠ []) (hsf : ∀ c ∈ s, c ≠ '/') :
    segs s = [s] := by
  rw [segs, splitSlash_slashFree s hsf]
  simp [hne]

theorem segs_joinSegs : ∀ ss : List (List Char),
    (∀ s ∈ ss, s ≠ [] ∧ ∀ c ∈ s, c ≠ '/') → segs (joinSegs ss) = ss
  | [], _ => segs_nil
  | [s], h => by
    obtain ⟨hne, hsf⟩ := h s (by simp)
    rw [joinSegs, segs_single s hne hsf]
  | s :: s₂ :: rest, h => by
    obtain ⟨hne, hsf⟩ := h s (by simp)
    have htail := segs_joinSegs (s₂ :: rest)
      (fun t ht => h t (List.mem_cons_of_mem s ht))
    rw [joinSegs, segs_append, segs_single s hne hsf, htail]
    rfl

theorem joinSegs_ne_nil (s : List Char) (rest : List (List Char)) (h : s ≠ []) :
    joinSegs (s :: rest) ≠ [] := by
  match rest with
  | [] => rw [joinSegs]; exact h
  | r :: rs =>
    rw [joinSegs]
    intro hc
    exact h (List.append_eq_nil.mp hc).1

theorem hasNonSlash_joinSegs (s : List Char) (rest : List (List Char))
    (hne : s ≠ []) (hsf : ∀ c ∈ s, c ≠ '/') :
    hasNonSlash (joinSegs (s :: rest)) = true := by
  obtain ⟨c, t, hct⟩ := List.exists_cons_of_ne_nil hne
  subst hct
  have hc : ¬(c == '/') = true := by simpa using hsf c (by simp)
  match rest with
  | [] => simp [joinSegs, hasNonSlash, hc]
  | r :: rs => simp [joinSegs, hasNonSlash, hc]

theorem head?_joinSegs (s : List Char) (rest : List (List Char)) (hne : s ≠ []) :
    (joinSegs (s :: rest)).head? = s.head? := by
  obtain ⟨c, t, hct⟩ := List.exists_cons_of_ne_nil hne
  subst hct
  match rest with
  | [] => rfl
  | r :: rs => rfl

theorem head?_append_of_ne_nil (l m : List Char) (h : l ≠ []) :
    (l ++ m).head? = l.head? := by
  cases l with
  | nil => exact absurd rfl h
  | cons c t => rfl

theorem segs_canon (l : List Char) : segs (canon l) = segs l := by
  have hwf : ∀ s ∈ segs l, s ≠ [] ∧ ∀ c ∈ s, c ≠ '/' :=
    fun s hs => ⟨mem_segs_ne_nil hs, mem_segs_slashFree hs⟩
  by_cases h : hasNonSlash l = true
  · rw [canon, if_pos h, leadSlash]
    split
    · show segs ('/' :: joinSegs (segs l)) = segs l
      rw [segs_cons_slash]
      exact segs_joinSegs _ hwf
    · rw [List.nil_append]
      exact segs_joinSegs _ hwf
  · have h' : hasNonSlash l = false := eq_false_of_ne_true h
    rw [canon, if_neg h, segs_of_all_slash l h']
    split
    · exact segs_nil
    · rw [show ('/' :: ([] : List Char)) = '/' :: [] from rfl, segs_cons_slash]
      exact segs_nil

theorem hasNonSlash_canon (l : List Char) : hasNonSlash (canon l) = hasNonSlash l := by
  by_cases h : hasNonSlash l = true
  · rw [canon, if_pos h, h]
    have hsegs : segs l ≠ [] := by
      intro hnil
      rw [(segs_eq_nil_iff l).mp hnil] at h
      exact Bool.false_ne_true h
    obtain ⟨g, gs, hgs⟩ := List.exists_cons_of_ne_nil hsegs
    have hg : g ∈ segs l := hgs ▸ List.mem_cons_self g gs
    rw [hgs]
    simp only [hasNonSlash, List.any_append]
    rw [show (joinSegs (g :: gs)).any (fun c => !(c == '/')) = true from
      hasNonSlash_joinSegs g gs (mem_segs_ne_nil hg) (mem_segs_slashFree hg)]
    simp
  · have h' : hasNonSlash l = false := eq_false_of_ne_true h
    rw [canon, if_neg h, h']
    split
    · rfl
    · rfl

theorem head?_canon (l : List Char) : (canon l).head? = l.head? := by
  cases l with
  | nil => rfl
  | cons c t =>
    by_cases h : hasNonSlash (c :: t) = true
    · rw [canon, if_pos h, leadSlash]
      by_cases hc : c = '/'
      · subst hc
        rw [if_pos (by rfl)]
        rfl
      · rw [if_neg (by simp [hc]), List.nil_append]
        obtain ⟨s, ss, hss⟩ := List.exists_cons_of_ne_nil (splitSlash_ne_nil t)
        have hsegs : segs (c :: t) = (c :: s) :: ss.filter (fun u => !u.isEmpty) := by
          rw [segs, splitSlash, if_neg hc, hss]
          simp
        rw [hsegs, head?_joinSegs _ _ (by simp)]
        rfl
    · have h' : hasNonSlash (c :: t) = false := eq_false_of_ne_true h
      have hc : c = '/' := (hasNonSlash_eq_false_iff _).mp h' c (by simp)
      rw [canon, if_neg h]
      subst hc
      rfl

theorem canon_ne_nil (l : List Char) (h : l ≠ []) : canon l ≠ [] := by
  by_cases hn : hasNonSlash l = true
  · rw [canon, if_pos hn]
    have hsegs : segs l ≠ [] := by
      intro hnil
      rw [(segs_eq_nil_iff l).mp hnil] at hn
      exact Bool.false_ne_true hn
    obtain ⟨g, gs, hgs⟩ := List.exists_cons_of_ne_nil hsegs
    have hg : g ∈ segs l := hgs ▸ List.mem_cons_self g gs
    rw [hgs]
    intro hc
    exact joinSegs_ne_nil g gs (mem_segs_ne_nil hg) (List.append_eq_nil.mp hc).2
  · rw [canon, if_neg hn, if_neg (by simpa [List.isEmpty_iff] using h)]
    simp

theorem leadSlash_congr {x y : List Char} (h : x.head? = y.head?) :
    leadSlash x = leadSlash y := by
  rw [leadSlash, leadSlash, h]

theorem canon_congr {x y : List Char} (h1 : hasNonSlash x = hasNonSlash y)
    (h2 : segs x = segs y) (h3 : x.head? = y.head?) : canon x = canon y := by
  have h4 : x.isEmpty = y.isEmpty := by
    cases x <;> cases y <;> simp_all
  rw [canon, canon, h1, h2, leadSlash_congr h3, h4]

theorem canon_idem (l : List Char) : canon (canon l) = canon l :=
  canon_congr (hasNonSlash_canon l) (segs_canon l) (head?_canon l)

theorem hasNonSlash_append (x y : List Char) :
    hasNonSlash (x ++ y) = (hasNonSlash x || hasNonSlash y) := by
  simp [hasNonSlash, List.any_append]

theorem canon_append_left (u w : List Char) :
    canon (canon u ++ '/' :: w) = canon (u ++ '/' :: w) := by
  by_cases hu : u = []
  · subst hu
    rfl
  · refine canon_congr ?_ ?_ ?_
    · rw [hasNonSlash_append, hasNonSlash_append, hasNonSlash_canon]
    · rw [segs_append, segs_append, segs_canon]
    · rw [head?_append_of_ne_nil _ _ (canon_ne_nil u hu),
        head?_append_of_ne_nil _ _ hu, head?_canon]

theorem hasNonSlash_cons_slash (x : List Char) :
    hasNonSlash ('/' :: x) = hasNonSlash x := by
  simp [hasNonSlash]

theorem canon_append_right (a v : List Char) :
    canon (a ++ '/' :: canon v) = canon (a ++ '/' :: v) := by
  refine canon_congr ?_ ?_ ?_
  · rw [hasNonSlash_append, hasNonSlash_append, hasNonSlash_cons_slash,
      hasNonSlash_cons_slash, hasNonSlash_canon]
  · rw [segs_append, segs_append, segs_canon]
  · by_cases ha : a = []
    · subst ha
      rfl
    · rw [head?_append_of_ne_nil _ _ ha, head?_append_of_ne_nil _ _ ha]

theorem pathJoin_pair (a b : String) :
    pathJoin [.strV a, .strV b] = String.mk (canon (a.data ++ '/' :: b.data)) := by
  show normalize [a, b] = _
  rw [normalize, if_neg (by simp)]
  rw [show joinSegs ([a, b].map String.data) = a.data ++ '/' :: b.data from rfl]
  rw [normalizeChars_eq_canon]

theorem pathJoin_single (a : String) :
    pathJoin [.strV a] = String.mk (canon a.data) := by
  show normalize [a] = _
  rw [normalize, if_neg (by simp)]
  rw [show joinSegs ([a].map String.data) = a.data from rfl]
  rw [normalizeChars_eq_canon]

theorem pathJoin_eq_spec (args : List JsVal) : pathJoin args = pathJoinSpec args := by
  rw [pathJoin, pathJoinSpec]
  by_cases hp : (args.filterMap
      (fun v => match v with | .strV s => some s | _ => none)).isEmpty
  · rw [normalize, if_pos hp]
    rw [List.isEmpty_iff.mp hp]
    rw [show collapse (joinSegs (([] : List String).map String.data)) = [] from rfl]
    rw [if_neg (by simp)]
    rfl
  · rw [normalize, if_neg (by simp [hp])]
    set l := joinSegs ((args.filterMap
      (fun v => match v with | .strV s => some s | _ => none)).map String.data) with hl
    by_cases hs : hasNonSlash (collapse l) = true
    · rw [normalizeChars]
      simp only [hs, if_true]
      rw [if_neg (by simp [hs])]
    · have hs' : hasNonSlash (collapse l) = false := eq_false_of_ne_true hs
      rw [normalizeChars]
      simp only [hs', Bool.false_eq_true, if_false]
      by_cases hc : collapse l = []
      · rw [if_neg (by simp [hc]), hc]
        rfl
      · have hlnil : l ≠ [] := fun h => hc (by rw [h]; rfl)
        have hln : hasNonSlash l = false := (hasNonSlash_collapse l).symm.trans hs'
        rw [if_pos ⟨hc, trivial⟩, collapse_all_slash l hln hlnil]

/-- C5: the path-join function drops non-string segments, concatenates
the remaining segments with a slash, collapses every run of two or more
consecutive slashes into one, and strips trailing slashes unless the
result consists solely of slashes, in which case it collapses to a single
slash; in particular joining two empty strings gives a single slash and
non-string arguments such as `null` and `undefined` are dropped. -/
theorem pathJoin_matches_spec :
    (∀ args : List JsVal, pathJoin args = pathJoinSpec args)
    ∧ pathJoin [.strV "", .strV ""] = "/"
    ∧ pathJoin [.strV "path", .nullV, .strV "to", .undefV, .strV "resource"]
        = "path/to/resource" :=
  ⟨pathJoin_eq_spec, by decide, by decide⟩

/-- C6: on string segments, path join is associative under segment
concatenation and idempotent on its own output. -/
theorem pathJoin_assoc_idem (a b c : String) :
    pathJoin [.strV (pathJoin [.strV a, .strV b]), .strV c]
      = pathJoin [.strV a, .strV (pathJoin [.strV b, .strV c])]
    ∧ pathJoin [.strV (pathJoin [.strV a, .strV b])]
      = pathJoin [.strV a, .strV b] := by
  constructor
  · rw [pathJoin_pair a b, pathJoin_pair b c]
    rw [pathJoin_pair (String.mk (canon (a.data ++ '/' :: b.data))) c]
    rw [pathJoin_pair a (String.mk (canon (b.data ++ '/' :: c.data)))]
    show String.mk (canon (canon (a.data ++ '/' :: b.data) ++ '/' :: c.data))
       = String.mk (canon (a.data ++ '/' :: canon (b.data ++ '/' :: c.data)))
    rw [canon_append_left, canon_append_right, List.append_assoc]
    rfl
  · rw [pathJoin_pair a b, pathJoin_single (String.mk (canon (a.data ++ '/' :: b.data)))]
    show String.mk (canon (canon (a.data ++ '/' :: b.data)))
       = String.mk (canon (a.data ++ '/' :: b.data))
    rw [canon_idem]

/-- C4: the argument list produced by the parameter extractor always ends
with the two trailing positional arguments `(context, continuation)`
appended after the index-filled named slots — for every binding list,
including ones that bind context or continuation individually — and the
empty binding list produces exactly `(context, continuation)`. -/
theorem extractParameters_trailing (ctx nextV : JsVal) (params : List ParameterMetadata) :
    extractParameters ctx nextV params = fillSlots ctx nextV params ++ [ctx, nextV]
    ∧ extractParameters ctx nextV [] = [ctx, nextV] := by
  constructor
  · rw [extractParameters]
    by_cases h : params.isEmpty
    · rw [if_pos h, List.isEmpty_iff.mp h]
      rfl
    · rw [if_neg h]
  · rfl

theorem foldl_roles_all (p : String → Bool) :
    ∀ (l : List String) (acc : Bool),
      l.foldl (fun acc r => if p r then acc else false) acc = (acc && l.all p)
  | [], acc => by simp
  | r :: l, acc => by
    rw [List.foldl_cons, foldl_roles_all p l]
    by_cases h : p r = true <;> simp [h, Bool.and_assoc]

theorem foldl_roles_all_and (p : String → Bool) :
    ∀ (l : List String) (acc : Bool),
      l.foldl (fun acc r => p r && acc) acc = (acc && l.all p)
  | [], acc => by simp
  | r :: l, acc => by
    rw [List.foldl_cons, foldl_roles_all_and p l, List.all_cons]
    cases p r <;> cases acc <;> simp

/-- C2: the authorization handler built for a set of required roles
throws 401 when the principal is absent or not authenticated, throws 403
when the principal is authenticated but fails at least one required role,
and calls the continuation otherwise. -/
theorem authorizationHandler_statuses (roles : List String) (principal : Option Principal) :
    ((principal = none ∨ ∃ p, principal = some p ∧ p.isAuthenticated = false) →
      authorizationHandler roles principal = .thrown 401)
    ∧ (∀ p, principal = some p → p.isAuthenticated = true →
        (∃ r, r ∈ roles ∧ p.isInRole r = false) →
        authorizationHandler roles principal = .thrown 403)
    ∧ (∀ p, principal = some p → p.isAuthenticated = true →
        (∀ r ∈ roles, p.isInRole r = true) →
        authorizationHandler roles principal = .nextCalled) := by
  refine ⟨?_, ?_, ?_⟩
  · rintro (h | ⟨p, hp, hauth⟩)
    · subst h
      rfl
    · subst hp
      simp [authorizationHandler, hauth]
  · rintro p rfl hauth ⟨r, hr, hrole⟩
    have hall : roles.all p.isInRole = false :=
      List.all_eq_false.mpr ⟨r, hr, by simp [hrole]⟩
    simp [authorizationHandler, hauth, foldl_roles_all_and, hall]
  · rintro p rfl hauth hall
    have hall' : roles.all p.isInRole = true := List.all_eq_true.mpr hall
    simp [authorizationHandler, hauth, foldl_roles_all_and, hall']

theorem authorizationHandler_statuses_witness :
    authorizationHandler ["admin"] none = .thrown 401
    ∧ authorizationHandler ["admin", "root"] (some pAdmin) = .thrown 403
    ∧ authorizationHandler ["admin"] (some pAdmin) = .nextCalled :=
  ⟨(authorizationHandler_statuses ["admin"] none).1 (Or.inl rfl),
   (authorizationHandler_statuses ["admin", "root"] (some pAdmin)).2.1 pAdmin rfl rfl
     ⟨"root", by decide, by decide⟩,
   (authorizationHandler_statuses ["admin"] (some pAdmin)).2.2 pAdmin rfl rfl
     (by decide)⟩

/-- C1: for every controller method with route metadata, the route
registered under (verb, pathJoin(controller path, method path)) carries
exactly, in order: the resolved controller-level middleware, the resolved
method-level middleware, the authorization handlers (class-wide rule
before the method-specific rule when both exist), and the terminal
dispatcher. -/
theorem registerController_chain (H : Type) (c : Container H) (data : ControllerData H)
    (cm : ControllerMetadata H) (mms : List (ControllerMethodMetadata H))
    (hcm : data.controllerMetadata = some cm) (hmms : data.methodMetadata = some mms) :
    registerController c data = mms.map (fun m =>
      { verb := m.method
        path := pathJoin [.strV cm.path, .strV m.path]
        chain :=
          (resolveMiddleware c cm.middleware).map Handler.mw
          ++ (resolveMiddleware c m.middleware).map Handler.mw
          ++ (classAuthHandlers data ++ methodAuthHandlers data m.key)
          ++ [Handler.dispatch cm.targetName m.key (paramListFor data m.key)] }) := by
  rw [registerController, hcm, hmms]

theorem registerController_chain_witness :
    registerController wContainer wData =
      [{ verb := "get"
         path := "/api/items"
         chain := [.mw (.wrapped 1), .mw (.asIs (.inline 7)), .mw (.asIs (.inline 9)),
           .auth ["admin"], .auth ["owner"],
           .dispatch "TestController" "getItems" [⟨"id", 0, .PARAMS⟩]] }] := by
  rw [registerController_chain Nat wContainer wData
    ⟨"/api", [.serviceId "mid", .inline 7], "TestController"⟩
    [⟨"/items", [.inline 9], "get", "getItems"⟩] rfl rfl]
  decide

theorem runChain_mw_pass {H : Type} (beh : ResolvedMw H → Bool)
    (principal : Option Principal) (ms : List (ResolvedMw H)) (rest : List (Handler H))
    (hbeh : ∀ m ∈ ms, beh m = true) :
    runChain beh principal (ms.map Handler.mw ++ rest) = runChain beh principal rest := by
  induction ms with
  | nil => rfl
  | cons m ms ih =>
    simp only [List.map_cons, List.cons_append, runChain]
    rw [if_pos (hbeh m (by simp))]
    exact ih (fun m' hm' => hbeh m' (List.mem_cons_of_mem m hm'))

theorem authorizationHandler_default (roles : List String) :
    authorizationHandler roles (some defaultPrincipal) = .thrown 401 := rfl

/-- C3: with no auth provider configured, the synthesized per-request
principal denies everything, and a request to any registered route whose
chain carries at least one authorization handler yields status 401
(middleware that pass the request on do not change this). -/
theorem noProvider_always_deny (ctx : JsVal) :
    getCurrentPrincipal none ctx = defaultPrincipal
    ∧ (getCurrentPrincipal none ctx).isAuthenticated = false
    ∧ (∀ role, (getCurrentPrincipal none ctx).isInRole role = false)
    ∧ (∀ rid, (getCurrentPrincipal none ctx).isResourceOwner rid = false)
    ∧ (∀ (H : Type) (c : Container H) (data : ControllerData H)
        (beh : ResolvedMw H → Bool) (route : RouteEntry H),
        route ∈ registerController c data →
        (∃ roles, Handler.auth roles ∈ route.chain) →
        (∀ m, beh m = true) →
        runChain beh (some (getCurrentPrincipal none ctx)) route.chain = .status 401) := by
  refine ⟨rfl, rfl, fun _ => rfl, fun _ => rfl, ?_⟩
  intro H c data beh route hroute hauth hbeh
  rcases hdc : data.controllerMetadata with _ | cm
  · rw [registerController, hdc] at hroute
    simp at hroute
  · rcases hdm : data.methodMetadata with _ | mms
    · rw [registerController, hdc, hdm] at hroute
      simp at hroute
    · rw [registerController, hdc, hdm] at hroute
      obtain ⟨m, hm, heq⟩ := List.mem_map.mp hroute
      subst heq
      simp only []
      rw [List.append_assoc, List.append_assoc]
      rw [runChain_mw_pass beh _ _ _ (fun m' _ => hbeh m')]
      rw [runChain_mw_pass beh _ _ _ (fun m' _ => hbeh m')]
      rcases haa : data.authorizeAllMetadata with _ | am
      · rcases ham : methodAuthHandlers data m.key with _ | ⟨h₀, hs⟩
        · exfalso
          obtain ⟨roles, hmem⟩ := hauth
          simp only [classAuthHandlers, haa, ham, List.nil_append,
            List.append_nil] at hmem
          simp [List.mem_append, List.mem_map] at hmem
        · rw [classAuthHandlers, haa, List.nil_append]
          have hh : ∃ roles, h₀ = Handler.auth roles ∧ hs = [] := by
            rw [methodAuthHandlers] at ham
            split at ham
            · split at ham
              · simp only [List.cons.injEq] at ham
                exact ⟨_, ham.1.symm, ham.2.symm⟩
              · exact absurd ham (by simp)
            · exact absurd ham (by simp)
          obtain ⟨roles, rfl, rfl⟩ := hh
          simp [runChain, authorizationHandler_default, getCurrentPrincipal]
      · rw [classAuthHandlers, haa]
        simp [runChain, authorizationHandler_default, getCurrentPrincipal]

theorem getField_of_lookup {o : JsVal} {name : String} {v : JsVal}
    (h : lookupField o name = some v) : getField o name = v := by
  cases o <;> simp_all [lookupField, getField]

/-- C7 counterexample: for a cookie binding whose `sourceName` is absent
from the cookie jar object's own fields, the extractor yields the
`get(name)` lookup of the jar — here the cookie value — and not the
whole source object, contradicting the claim for the cookie kind. -/
theorem getParam_cookie_not_whole_source :
    getParam wCtx (some "cookies") "session" = .strV "abc123"
    ∧ getParam wCtx (some "cookies") "session" ≠ getField wCtx "cookies"
    ∧ getParam wCtx (some "cookies") "session" ≠ wCtx := by
  refine ⟨rfl, ?_, ?_⟩
  · intro h
    rw [show getParam wCtx (some "cookies") "session" = .strV "abc123" from rfl,
      show getField wCtx "cookies" = .obj [] [("session", .strV "abc123")] from rfl] at h
    exact JsVal.noConfusion h
  · intro h
    rw [show getParam wCtx (some "cookies") "session" = .strV "abc123" from rfl] at h
    exact JsVal.noConfusion h

/-- C7 amended: when the named field is absent (the lookup is not
truthy), the query-param kind yields `undefined` — explicitly not the
whole query map — the request/response/context kinds and the body/header
kinds fall back to the whole source object selected for the binding, and
the cookie kind falls back to the cookie jar's `get(name)` lookup. -/
theorem getParam_fallback_kinds (ctx : JsVal) (name : String) :
    (truthy (getField (paramOf ctx (some "query")) name) = false →
      getParam ctx (some "query") name = .undefV)
    ∧ (∀ source, truthy (getField source name) = false →
        getParam source none name = source)
    ∧ (truthy (getField (paramOf (getField ctx "request") (some "body")) name) = false →
        getParam (getField ctx "request") (some "body") name
          = paramOf (getField ctx "request") (some "body"))
    ∧ (truthy (getField (paramOf (getField ctx "request") (some "headers")) name) = false →
        getParam (getField ctx "request") (some "headers") name
          = paramOf (getField ctx "request") (some "headers"))
    ∧ (truthy (getField (paramOf ctx (some "cookies")) name) = false →
        getParam ctx (some "cookies") name
          = getGet (paramOf ctx (some "cookies")) name) := by
  refine ⟨?_, ?_, ?_, ?_, ?_⟩
  · intro h
    simp [getParam, checkQueryParam, h]
  · intro source h
    simp [getParam, checkQueryParam, paramOf, h]
  · intro h
    simp [getParam, checkQueryParam, h]
  · intro h
    simp [getParam, checkQueryParam, h]
  · intro h
    simp [getParam, checkQueryParam, h]

theorem getParam_fallback_kinds_witness :
    getParam wCtx (some "query") "missing" = .undefV
    ∧ getParam (getField wCtx "request") none "missing" = getField wCtx "request"
    ∧ getParam (getField wCtx "request") (some "body") "missing"
        = paramOf (getField wCtx "request") (some "body")
    ∧ getParam (getField wCtx "request") (some "headers") "missing"
        = paramOf (getField wCtx "request") (some "headers")
    ∧ getParam wCtx (some "cookies") "missing"
        = getGet (paramOf wCtx (some "cookies")) "missing" :=
  ⟨(getParam_fallback_kinds wCtx "missing").1 rfl,
   (getParam_fallback_kinds wCtx "missing").2.1 (getField wCtx "request") rfl,
   (getParam_fallback_kinds wCtx "missing").2.2.1 rfl,
   (getParam_fallback_kinds wCtx "missing").2.2.2.1 rfl,
   (getParam_fallback_kinds wCtx "missing").2.2.2.2 rfl⟩

/-- C10: a named field that is present but holds a falsy value is treated
like an absent field: the extractor yields the per-kind fallback of
`checkQueryParam` — `undefined` for query-param, the cookie jar's
`get(name)` for cookies, the whole selected source object otherwise —
rather than the falsy field value. -/
theorem getParam_falsy_present (source : JsVal) (pt : Option String) (name : String)
    (v : JsVal) (hpresent : lookupField (paramOf source pt) name = some v)
    (hfalsy : truthy v = false) :
    getParam source pt name = checkQueryParam pt (paramOf source pt) name
    ∧ checkQueryParam pt (paramOf source pt) name =
        (if pt = some "query" then .undefV
         else if pt = some "cookies" then getGet (paramOf source pt) name
         else paramOf source pt) := by
  constructor
  · rw [getParam]
    rw [getField_of_lookup hpresent]
    rw [if_neg (by rw [hfalsy]; exact Bool.false_ne_true)]
  · rfl

theorem getParam_falsy_present_witness :
    getParam falsyCtx none "a" = checkQueryParam none (paramOf falsyCtx none) "a"
    ∧ checkQueryParam none (paramOf falsyCtx none) "a" =
        (if (none : Option String) = some "query" then .undefV
         else if (none : Option String) = some "cookies"
           then getGet (paramOf falsyCtx none) "a"
         else paramOf falsyCtx none) :=
  getParam_falsy_present falsyCtx none "a" (.strV "") rfl rfl

/-- C8 counterexample: a falsy non-Promise return value (`false`) with
headers unsent is not assigned as the response body — the response body
stays unchanged, contradicting the claim that every non-asynchronous
return value is assigned when headers are unsent. -/
theorem dispatch_falsy_not_assigned :
    dispatchResult (.boolV false) false none = .completed none
    ∧ dispatchResult (.boolV false) false none ≠ .completed (some (.boolV false)) := by
  refine ⟨rfl, ?_⟩
  intro h
  rw [show dispatchResult (.boolV false) false none = .completed none from rfl] at h
  injection h with h'
  exact Option.noConfusion h'

/-- C8 amended: a Promise return value is yielded to the pipeline; a
truthy non-Promise return value is assigned as the response body when
headers are unsent; a non-Promise value is discarded when headers are
already sent; and a falsy value is always discarded. -/
theorem dispatchResult_behavior (result : JsVal) (headerSent : Bool) (body : Option JsVal) :
    (isPromise result = true →
      dispatchResult result headerSent body = .yieldedAsync result)
    ∧ (isPromise result = false → truthy result = true → headerSent = false →
      dispatchResult result headerSent body = .completed (some result))
    ∧ (isPromise result = false → headerSent = true →
      dispatchResult result headerSent body = .completed body)
    ∧ (truthy result = false →
      dispatchResult result headerSent body = .completed body) := by
  refine ⟨?_, ?_, ?_, ?_⟩
  · intro hp
    have ht : truthy result = true := by
      cases result <;> simp_all [isPromise, truthy]
    simp [dispatchResult, hp, ht]
  · intro hp ht hh
    subst hh
    simp [dispatchResult, hp, ht]
  · intro hp hh
    subst hh
    simp [dispatchResult, hp]
  · intro ht
    simp [dispatchResult, ht]

theorem dispatchResult_behavior_witness :
    dispatchResult (.promiseV (.strV "x")) false none
      = .yieldedAsync (.promiseV (.strV "x"))
    ∧ dispatchResult (.strV "ok") false none = .completed (some (.strV "ok"))
    ∧ dispatchResult (.strV "ok") true (some (.strV "old"))
      = .completed (some (.strV "old"))
    ∧ dispatchResult (.boolV false) false (some (.strV "old"))
      = .completed (some (.strV "old")) :=
  ⟨(dispatchResult_behavior (.promiseV (.strV "x")) false none).1 rfl,
   (dispatchResult_behavior (.strV "ok") false none).2.1 rfl rfl rfl,
   (dispatchResult_behavior (.strV "ok") true (some (.strV "old"))).2.2.1 rfl rfl,
   (dispatchResult_behavior (.boolV false) false (some (.strV "old"))).2.2.2 rfl⟩

/-- C9: a falsy non-Promise return value leaves the response body
unchanged even when headers have not been sent, and any invocation that
changes the body must have had a truthy non-Promise return value, which
becomes the new body. -/
theorem dispatch_falsy_keeps_body (result : JsVal) (headerSent : Bool)
    (body : Option JsVal) :
    (truthy result = false → isPromise result = false →
      dispatchResult result headerSent body = .completed body)
    ∧ (∀ b, dispatchResult result headerSent body = .completed (some b) →
        some b ≠ body →
        truthy result = true ∧ isPromise result = false ∧ b = result) := by
  constructor
  · intro ht _
    simp [dispatchResult, ht]
  · intro b heq hne
    rw [dispatchResult] at heq
    split at heq
    · exact absurd heq (by simp)
    · rename_i h1
      split at heq
      · rename_i h2
        simp only [DispatchOutcome.completed.injEq, Option.some.injEq] at heq
        have ht : truthy result = true := by
          cases hres : truthy result <;> simp_all
        refine ⟨ht, ?_, heq.symm⟩
        cases hp : isPromise result
        · rfl
        · exact absurd (by rw [ht, hp]; rfl) h1
      · simp only [DispatchOutcome.completed.injEq] at heq
        exact absurd heq.symm hne

theorem dispatch_falsy_keeps_body_witness :
    dispatchResult (.numV 0) false (some (.strV "old")) = .completed (some (.strV "old"))
    ∧ (truthy (.strV "ok") = true ∧ isPromise (.strV "ok") = false
        ∧ (.strV "ok") = (.strV "ok" : JsVal)) :=
  ⟨(dispatch_falsy_keeps_body (.numV 0) false (some (.strV "old"))).1 rfl rfl,
   (dispatch_falsy_keeps_body (.strV "ok") false none).2 (.strV "ok") rfl
     (fun h => Option.noConfusion h)⟩

theorem noProvider_always_deny_witness :
    runChain (fun _ => true) (some (getCurrentPrincipal none (.obj [] [])))
      ({ verb := "get"
         path := "/api/items"
         chain := [.mw (.wrapped 1), .mw (.asIs (.inline 7)), .mw (.asIs (.inline 9)),
           .auth ["admin"], .auth ["owner"],
           .dispatch "TestController" "getItems" [⟨"id", 0, .PARAMS⟩]] } :
        RouteEntry Nat).chain
      = .status 401 :=
  (noProvider_always_deny (.obj [] [])).2.2.2.2 Nat wContainer wData (fun _ => true)
    _ (by decide) ⟨["admin"], by decide⟩ (fun _ => rfl)

end InversifyKoa
